import Mathlib

/-!
# Verification of the unseen-species richness estimation engine

The repository is a tutorial notebook that drives the `copia` richness
estimation engine (frequency summarisation, the chao1 estimator, bootstrap
resampling, species-accumulation curves and the minimum-additional-sampling
solver).  The engine itself is not part of the repository's sources, so each
operation below is modelled from the specification's description of it and
the notebook's call sites, and the stated properties are settled against
those models.
-/

namespace Copia

/-- An abundance vector: one positive count per observed species. -/
abbrev AbundanceVector := List ℕ

/-- Modelled from the spec: `f_k`, the number of species observed exactly `k`
times in the abundance vector (the engine's frequency-of-frequency counts). -/
def freq (x : AbundanceVector) (k : ℕ) : ℕ := x.count k

/-- Modelled from the spec: `S_obs`, the observed species richness
(`len(AbundanceVector)`). -/
def S_obs (x : AbundanceVector) : ℕ := x.length

/-- Modelled from the spec: `n`, the total number of observations
(`sum(AbundanceVector)`). -/
def nTotal (x : AbundanceVector) : ℕ := x.sum

/-- A valid abundance vector is non-empty with every entry at least 1. -/
def Valid (x : AbundanceVector) : Prop := x ≠ [] ∧ ∀ e ∈ x, 1 ≤ e

instance (x : AbundanceVector) : Decidable (Valid x) := by
  unfold Valid; infer_instance

/-- Frequency counts: the sufficient statistics every estimator consumes. -/
structure FrequencyCounts where
  f : ℕ → ℕ
  S_obs : ℕ
  n : ℕ

/-- Modelled from the spec: the Frequency Summarizer reducing an abundance
vector to its frequency counts (`copia.utils.basic_stats` core). -/
def summarize (x : AbundanceVector) : FrequencyCounts :=
  { f := fun k => x.count k, S_obs := x.length, n := x.sum }

/-- Modelled from the spec: the chao1 estimator on frequency counts.  With
`f2 > 0` it returns `S_obs + f1^2 / (2 f2)`; with `f2 = 0` it takes the
bias-corrected degenerate branch `S_obs + f1 (f1 - 1) / 2`. -/
def chao1fc (fc : FrequencyCounts) : ℚ :=
  if 0 < fc.f 2 then
    (fc.S_obs : ℚ) + (fc.f 1 : ℚ) ^ 2 / (2 * (fc.f 2 : ℚ))
  else
    (fc.S_obs : ℚ) + (fc.f 1 : ℚ) * ((fc.f 1 : ℚ) - 1) / 2

/-- Modelled from the spec: `diversity(x, method='chao1')`. -/
def chao1 (x : AbundanceVector) : ℚ := chao1fc (summarize x)

lemma chao1_eq (x : AbundanceVector) :
    chao1 x = if 0 < freq x 2 then
        (S_obs x : ℚ) + (freq x 1 : ℚ) ^ 2 / (2 * (freq x 2 : ℚ))
      else
        (S_obs x : ℚ) + (freq x 1 : ℚ) * ((freq x 1 : ℚ) - 1) / 2 := rfl

/-- The nonnegative excess of chao1 over the observed richness. -/
lemma chao1_ge (x : AbundanceVector) : (S_obs x : ℚ) ≤ chao1 x := by
  rw [chao1_eq]
  split
  · have h2 : (0 : ℚ) < 2 * (freq x 2 : ℚ) := by
      positivity
    nlinarith [sq_nonneg ((freq x 1 : ℚ)), div_nonneg (sq_nonneg ((freq x 1 : ℚ))) h2.le]
  · rcases Nat.eq_zero_or_pos (freq x 1) with h1 | h1
    · simp [h1]
    · have : (1 : ℚ) ≤ (freq x 1 : ℚ) := by exact_mod_cast h1
      nlinarith

lemma chao1_eq_S_iff (x : AbundanceVector) :
    chao1 x = (S_obs x : ℚ) ↔ (freq x 1 = 0 ∨ (freq x 2 = 0 ∧ freq x 1 = 1)) := by
  rw [chao1_eq]
  split
  · rename_i h2
    have h2' : (0 : ℚ) < 2 * (freq x 2 : ℚ) := by positivity
    constructor
    · intro h
      left
      have hdiv : ((freq x 1 : ℚ)) ^ 2 / (2 * (freq x 2 : ℚ)) = 0 := by linarith
      field_simp at hdiv
      exact hdiv
    · intro h
      rcases h with h1 | ⟨hf2, _⟩
      · simp [h1]
      · omega
  · rename_i h2
    have hf2 : freq x 2 = 0 := by omega
    constructor
    · intro h
      have hmul : (freq x 1 : ℚ) * ((freq x 1 : ℚ) - 1) = 0 := by linarith
      rcases mul_eq_zero.mp hmul with h1 | h1
      · left
        exact_mod_cast h1
      · right
        refine ⟨hf2, ?_⟩
        have h1' : (freq x 1 : ℚ) = 1 := by linarith
        exact_mod_cast h1'
    · intro h
      rcases h with h1 | ⟨_, h1⟩ <;> simp [h1]

/-- The engine's error taxonomy. -/
inductive EngineError where
  | invalidInput
  | unknownMethod
  | invalidConfiguration
  | unsolvable
  | cancelled
deriving DecidableEq

/-- Modelled from the spec: `copia.utils.basic_stats` validating its raw
input — an empty vector or one holding a non-positive or non-integer entry
is rejected with `InvalidInputError` — and producing the frequency counts. -/
def basic_stats (raw : List ℚ) : Except EngineError FrequencyCounts :=
  if raw = [] then .error .invalidInput
  else if ∀ q ∈ raw, q.den = 1 ∧ 1 ≤ q then
    .ok (summarize (raw.map (fun q => q.num.toNat)))
  else .error .invalidInput

/-- A rational entry violates validity exactly when it is non-positive or
not an integer. -/
lemma entry_invalid_iff (q : ℚ) : ¬(q.den = 1 ∧ 1 ≤ q) ↔ (q ≤ 0 ∨ q.den ≠ 1) := by
  constructor
  · intro h
    by_cases hd : q.den = 1
    · left
      have hint : (q.num : ℚ) = q := (Rat.den_eq_one_iff q).mp hd
      have hlt : q < 1 := by
        by_contra hge
        exact h ⟨hd, le_of_not_lt hge⟩
      have hnum : q.num < 1 := by
        rw [← hint] at hlt
        exact_mod_cast hlt
      have hnum0 : q.num ≤ 0 := by omega
      calc q = (q.num : ℚ) := hint.symm
        _ ≤ 0 := by exact_mod_cast hnum0
    · right; exact hd
  · rintro (h | h) ⟨hd, hge⟩
    · linarith
    · exact h hd

lemma mem_le_sum {x : List ℕ} {a : ℕ} (h : a ∈ x) : a ≤ x.sum :=
  List.le_sum_of_mem h

lemma sum_range_count (x : List ℕ) (m : ℕ) (h : ∀ e ∈ x, e < m) :
    ∑ k ∈ Finset.range m, x.count k = x.length := by
  induction x with
  | nil => simp
  | cons a t ih =>
    have ha : a ∈ Finset.range m := Finset.mem_range.mpr (h a (by simp))
    have ht : ∀ e ∈ t, e < m := fun e he => h e (by simp [he])
    simp only [List.count_cons, beq_iff_eq, List.length_cons]
    rw [Finset.sum_add_distrib, ih ht]
    simp [Finset.sum_ite_eq, Finset.sum_ite_eq', ha]

lemma sum_range_mul_count (x : List ℕ) (m : ℕ) (h : ∀ e ∈ x, e < m) :
    ∑ k ∈ Finset.range m, k * x.count k = x.sum := by
  induction x with
  | nil => simp
  | cons a t ih =>
    have ha : a ∈ Finset.range m := Finset.mem_range.mpr (h a (by simp))
    have ht : ∀ e ∈ t, e < m := fun e he => h e (by simp [he])
    simp only [List.count_cons, beq_iff_eq, List.sum_cons, Nat.mul_add, mul_ite,
      mul_one, mul_zero]
    rw [Finset.sum_add_distrib, ih ht]
    simp [Finset.sum_ite_eq, Finset.sum_ite_eq', ha]
    try omega

lemma valid_entry_lt (x : AbundanceVector) :
    ∀ e ∈ x, e < x.sum + 1 := by
  intro e he
  exact Nat.lt_succ_of_le (mem_le_sum he)

/-- Modelled from the spec: `copia.utils.to_abundance`, reducing a sequence
of labels to the per-label occurrence counts, one count per distinct label in
order of first appearance. -/
def to_abundance {α : Type} [DecidableEq α] (labels : List α) : List ℕ :=
  labels.dedup.map (fun a => labels.count a)

/-- Modelled from the spec: the notebook's alternative construction route
`value_counts().values` — the same per-label counts, in descending order. -/
def value_counts {α : Type} [DecidableEq α] (labels : List α) : List ℕ :=
  (Multiset.sort (· ≤ ·) (↑(labels.dedup.map (fun a => labels.count a)) : Multiset ℕ)).reverse

/-- chao1 only depends on the multiset of counts. -/
lemma chao1_perm {x y : AbundanceVector} (h : List.Perm x y) : chao1 x = chao1 y := by
  simp [chao1_eq, freq, S_obs, h.count_eq, h.length_eq]

/-- Bootstrap interval result record. -/
structure EstimateResult where
  point : ℚ
  bootstrap : List ℚ
  lower : ℚ
  upper : ℚ
  confidence : ℚ

/-- The sorted replicate distribution (a canonical sorted copy). -/
def sortedReps (l : List ℚ) : List ℚ := Multiset.sort (· ≤ ·) (↑l : Multiset ℚ)

/-- Modelled from the spec: the empirical `q`-quantile of the sorted
replicate distribution (nearest-rank on the sorted copy). -/
def empiricalQuantile (l : List ℚ) (q : ℚ) : ℚ :=
  (sortedReps l).getD (min (l.length - 1) (⌊q * (l.length : ℚ)⌋.toNat)) 0

/-- Modelled from the spec: one bootstrap replicate's estimate — replicate
`i` draws a synthetic abundance vector from the seeded generator at `(seed,
i)` and re-runs the estimator on it (the seed is threaded through every
replicate rather than kept in global state). -/
def replicateEstimate (est : AbundanceVector → ℚ)
    (resample : ℕ → ℕ → AbundanceVector) (seed i : ℕ) : ℚ :=
  est (resample seed i)

/-- The sequential bootstrap replicate estimates, in index order. -/
def replicateEstimates (est : AbundanceVector → ℚ)
    (resample : ℕ → ℕ → AbundanceVector) (seed n_iter : ℕ) : List ℚ :=
  (List.range n_iter).map (replicateEstimate est resample seed)

/-- Modelled from the spec: parallel bootstrap execution with a bounded
worker pool — worker `j` of `n_jobs` computes the replicates whose index is
congruent to `j`, and the gather step concatenates the workers' outputs. -/
def parReplicateEstimates (est : AbundanceVector → ℚ)
    (resample : ℕ → ℕ → AbundanceVector) (seed n_iter n_jobs : ℕ) : List ℚ :=
  (((List.range n_jobs).map (fun j =>
    ((List.range n_iter).filter (fun i => i % n_jobs == j)).map
      (replicateEstimate est resample seed)))).flatten

/-- Modelled from the spec: `diversity(x, method, CI=True, …)` — compute the
point estimate, the `n_iter` replicate estimates (with `n_jobs` workers), and
the empirical quantile bounds of the sorted replicate distribution. -/
def bootstrapResult (est : AbundanceVector → ℚ)
    (resample : ℕ → ℕ → AbundanceVector) (x : AbundanceVector)
    (seed n_iter n_jobs : ℕ) (cl : ℚ) : EstimateResult :=
  let reps := parReplicateEstimates est resample seed n_iter n_jobs
  { point := est x
    bootstrap := reps
    lower := empiricalQuantile reps ((1 - cl) / 2)
    upper := empiricalQuantile reps (1 - (1 - cl) / 2)
    confidence := cl }

lemma sum_range_map_ite (k c a : ℕ) (ha : a < k) :
    ((List.range k).map (fun j => if a = j then c else 0)).sum = c := by
  induction k with
  | zero => omega
  | succ k ih =>
    rw [List.range_succ, List.map_append, List.sum_append]
    by_cases h : a = k
    · subst h
      have hz : ∀ y ∈ (List.range a).map (fun j => if a = j then c else 0), y = 0 := by
        intro y hy
        obtain ⟨j, hj, rfl⟩ := List.mem_map.mp hy
        have := List.mem_range.mp hj
        rw [if_neg (by omega)]
      rw [List.sum_eq_zero hz]
      simp
    · have ha' : a < k := by omega
      rw [ih ha']
      simp [h]

/-- Distributing replicate indices over residue classes permutes the
sequential index list. -/
lemma filter_mod_index_perm (n k : ℕ) (hk : 0 < k) :
    List.Perm
      (((List.range k).map (fun j =>
        (List.range n).filter (fun i => i % k == j))).flatten)
      (List.range n) := by
  apply List.perm_iff_count.mpr
  intro a
  rw [List.count_flatten a _, List.map_map]
  have hcount : ∀ j : ℕ,
      ((List.range n).filter (fun i => i % k == j)).count a
        = if a % k = j then (List.range n).count a else 0 := by
    intro j
    by_cases h : a % k = j
    · rw [if_pos h]
      exact List.count_filter (by simpa using h)
    · rw [if_neg h]
      refine List.count_eq_zero.mpr ?_
      intro hmem
      have hpj := (List.mem_filter.mp hmem).2
      simp only [beq_iff_eq] at hpj
      exact h hpj
  calc ((List.range k).map
          (List.count a ∘ fun j => (List.range n).filter (fun i => i % k == j))).sum
      = ((List.range k).map
          (fun j => if a % k = j then (List.range n).count a else 0)).sum := by
        congr 1
        refine List.map_congr_left ?_
        intro j _
        exact hcount j
    _ = (List.range n).count a :=
        sum_range_map_ite k _ (a % k) (Nat.mod_lt a hk)

/-- Parallel replicate gathering is a permutation of the sequential run. -/
lemma parReplicateEstimates_perm (est : AbundanceVector → ℚ)
    (resample : ℕ → ℕ → AbundanceVector) (seed n_iter n_jobs : ℕ)
    (hjobs : 0 < n_jobs) :
    List.Perm (parReplicateEstimates est resample seed n_iter n_jobs)
      (replicateEstimates est resample seed n_iter) := by
  unfold parReplicateEstimates replicateEstimates
  have hmap : (((List.range n_jobs).map (fun j =>
      ((List.range n_iter).filter (fun i => i % n_jobs == j)).map
        (replicateEstimate est resample seed)))).flatten
      = ((((List.range n_jobs).map (fun j =>
          (List.range n_iter).filter (fun i => i % n_jobs == j))).flatten).map
        (replicateEstimate est resample seed)) := by
    rw [List.map_flatten, List.map_map]
    rfl
  rw [hmap]
  exact (filter_mod_index_perm n_iter n_jobs hjobs).map _

/-- Modelled from the spec: rarefaction — the expected observed richness at a
subsample of size `m ≤ n`, by the closed-form hypergeometric expectation over
the observed frequency spectrum:
`S_obs − Σ_i C(n−x_i, m)/C(n, m)`. -/
def interpolatedRichness (x : AbundanceVector) (m : ℕ) : ℚ :=
  (x.length : ℚ) -
    (x.map (fun xi => ((x.sum - xi).choose m : ℚ) / ((x.sum).choose m : ℚ))).sum

/-- Modelled from the spec: `f0_hat`, the unseen-species count implied by the
selected estimator — by default chao1's unseen component `S_hat − S_obs`. -/
def f0hat (x : AbundanceVector) : ℚ := chao1 x - (x.length : ℚ)

/-- The per-draw discovery weight `f1 / (f0_hat·n + f1)` of the extrapolation
formula. -/
def pNew (x : AbundanceVector) : ℚ :=
  (freq x 1 : ℚ) / (f0hat x * (x.sum : ℚ) + (freq x 1 : ℚ))

/-- Modelled from the spec: extrapolation — for `m > n` the expected richness
is `S_obs + f0_hat · (1 − (1 − f1/(f0_hat·n + f1))^(m−n))`. -/
def extrapolatedRichness (x : AbundanceVector) (m : ℕ) : ℚ :=
  (x.length : ℚ) + f0hat x * (1 - (1 - pNew x) ^ (m - x.sum))

/-- Expected richness at sample size `m`: rarefaction below `n`,
extrapolation above. -/
def expectedRichness (x : AbundanceVector) (m : ℕ) : ℚ :=
  if m ≤ x.sum then interpolatedRichness x m else extrapolatedRichness x m

/-- Modelled from the spec: `species_accumulation(x, max_steps)` returning the
accumulation curve's `(sample_size, expected_richness)` points. -/
def species_accumulation (x : AbundanceVector) (max_steps : ℕ) : List (ℕ × ℚ) :=
  (List.range (max x.sum max_steps + 1)).map (fun m => (m, expectedRichness x m))

lemma sum_pos_of_valid {x : AbundanceVector} (hx : Valid x) : 0 < x.sum := by
  rcases x with _ | ⟨a, t⟩
  · exact absurd rfl hx.1
  · have ha : 1 ≤ a := hx.2 a (by simp)
    simp only [List.sum_cons]
    omega

/-- At the full sample size the rarefaction formula returns exactly the
observed richness. -/
lemma interpolated_at_n {x : AbundanceVector} (hx : Valid x) :
    interpolatedRichness x x.sum = (x.length : ℚ) := by
  unfold interpolatedRichness
  have hz : ∀ q ∈ x.map (fun xi =>
      ((x.sum - xi).choose x.sum : ℚ) / ((x.sum).choose x.sum : ℚ)), q = 0 := by
    intro q hq
    obtain ⟨xi, hxi, rfl⟩ := List.mem_map.mp hq
    have h1 : 1 ≤ xi := hx.2 xi hxi
    have hlt : x.sum - xi < x.sum := Nat.sub_lt (sum_pos_of_valid hx) (by omega)
    rw [Nat.choose_eq_zero_of_lt hlt]
    simp
  rw [List.sum_eq_zero hz]
  ring

/-- Cross-multiplied monotonicity of the binomial ratio `C(a,m)/C(nn,m)`. -/
lemma choose_cross (a nn m : ℕ) (hA : a ≤ nn) :
    a.choose (m + 1) * nn.choose m ≤ a.choose m * nn.choose (m + 1) := by
  have h1 : a.choose (m + 1) * (m + 1) = a.choose m * (a - m) :=
    Nat.choose_succ_right_eq a m
  have h2 : nn.choose (m + 1) * (m + 1) = nn.choose m * (nn - m) :=
    Nat.choose_succ_right_eq nn m
  have hsub : a - m ≤ nn - m := Nat.sub_le_sub_right hA m
  have key : a.choose (m + 1) * nn.choose m * (m + 1)
      ≤ a.choose m * nn.choose (m + 1) * (m + 1) := by
    calc a.choose (m + 1) * nn.choose m * (m + 1)
        = a.choose (m + 1) * (m + 1) * nn.choose m := by ring
      _ = a.choose m * (a - m) * nn.choose m := by rw [h1]
      _ ≤ a.choose m * (nn - m) * nn.choose m := by
          exact Nat.mul_le_mul_right _ (Nat.mul_le_mul_left _ hsub)
      _ = a.choose m * (nn.choose m * (nn - m)) := by ring
      _ = a.choose m * (nn.choose (m + 1) * (m + 1)) := by rw [h2]
      _ = a.choose m * nn.choose (m + 1) * (m + 1) := by ring
  exact Nat.le_of_mul_le_mul_right key (Nat.succ_pos m)

/-- Each rarefaction term `C(a,m)/C(nn,m)` shrinks as `m` grows
(while `m + 1 ≤ nn`). -/
lemma choose_ratio_antitone (a nn m : ℕ) (hA : a ≤ nn) (hm : m + 1 ≤ nn) :
    (a.choose (m + 1) : ℚ) / (nn.choose (m + 1) : ℚ)
      ≤ (a.choose m : ℚ) / (nn.choose m : ℚ) := by
  have hd1 : (0 : ℚ) < (nn.choose (m + 1) : ℚ) := by
    exact_mod_cast Nat.choose_pos hm
  have hd0 : (0 : ℚ) < (nn.choose m : ℚ) := by
    exact_mod_cast Nat.choose_pos (by omega : m ≤ nn)
  rw [div_le_div_iff₀ hd1 hd0]
  exact_mod_cast choose_cross a nn m hA

lemma f0hat_nonneg (x : AbundanceVector) : 0 ≤ f0hat x := by
  have := chao1_ge x
  unfold f0hat
  unfold S_obs at this
  linarith

lemma pNew_nonneg (x : AbundanceVector) : 0 ≤ pNew x := by
  unfold pNew
  apply div_nonneg
  · positivity
  · have := f0hat_nonneg x
    positivity

lemma pNew_le_one (x : AbundanceVector) : pNew x ≤ 1 := by
  unfold pNew
  rcases eq_or_lt_of_le (show (0 : ℚ) ≤ f0hat x * (x.sum : ℚ) + (freq x 1 : ℚ) by
    have := f0hat_nonneg x
    positivity) with h | h
  · rw [← h, div_zero]
    norm_num
  · rw [div_le_one h]
    have h0 : 0 ≤ f0hat x * (x.sum : ℚ) := by
      have := f0hat_nonneg x
      positivity
    linarith

/-- Extrapolated richness never drops below the observed richness. -/
lemma extrapolated_ge (x : AbundanceVector) (m : ℕ) :
    (x.length : ℚ) ≤ extrapolatedRichness x m := by
  unfold extrapolatedRichness
  have hq0 : 0 ≤ 1 - pNew x := by linarith [pNew_le_one x]
  have hq1 : 1 - pNew x ≤ 1 := by linarith [pNew_nonneg x]
  have hpow : (1 - pNew x) ^ (m - x.sum) ≤ 1 := pow_le_one₀ hq0 hq1
  have hf0 := f0hat_nonneg x
  nlinarith

/-- One step of monotonicity for the full interpolated-then-extrapolated
richness function. -/
lemma expectedRichness_le_succ {x : AbundanceVector} (hx : Valid x) (m : ℕ) :
    expectedRichness x m ≤ expectedRichness x (m + 1) := by
  by_cases h1 : m + 1 ≤ x.sum
  · rw [expectedRichness, if_pos (by omega), expectedRichness, if_pos h1]
    unfold interpolatedRichness
    have hterm : ∀ xi ∈ x,
        ((x.sum - xi).choose (m + 1) : ℚ) / ((x.sum).choose (m + 1) : ℚ)
          ≤ ((x.sum - xi).choose m : ℚ) / ((x.sum).choose m : ℚ) := by
      intro xi _
      exact choose_ratio_antitone (x.sum - xi) x.sum m (Nat.sub_le _ _) h1
    have hsum := List.sum_le_sum hterm
    linarith
  · by_cases h0 : m ≤ x.sum
    · have hm : m = x.sum := by omega
      rw [expectedRichness, if_pos h0, expectedRichness, if_neg h1, hm,
        interpolated_at_n hx]
      exact extrapolated_ge x (x.sum + 1)
    · rw [expectedRichness, if_neg h0, expectedRichness, if_neg h1]
      unfold extrapolatedRichness
      have hq0 : 0 ≤ 1 - pNew x := by linarith [pNew_le_one x]
      have hq1 : 1 - pNew x ≤ 1 := by linarith [pNew_nonneg x]
      have hpow : (1 - pNew x) ^ (m + 1 - x.sum) ≤ (1 - pNew x) ^ (m - x.sum) :=
        pow_le_pow_of_le_one hq0 hq1 (by omega)
      have hf0 := f0hat_nonneg x
      nlinarith

lemma expectedRichness_mono {x : AbundanceVector} (hx : Valid x) :
    Monotone (expectedRichness x) :=
  monotone_nat_of_le_succ (expectedRichness_le_succ hx)

/-- Modelled from the spec: the minimum-additional-sampling solver — a
bounded numerical search (here a fuel-limited scan, the bisection fallback's
limit behaviour) for the smallest additional sample count whose expected
richness reaches the target. -/
def minsampleSearch (x : AbundanceVector) (target : ℚ) : ℕ → ℕ → Option ℕ
  | 0, _ => none
  | fuel + 1, d =>
    if target ≤ expectedRichness x (x.sum + d) then some d
    else minsampleSearch x target fuel (d + 1)

/-- Modelled from the spec: `diversity(x, method='minsample')` with an
explicit target richness. -/
def minsample (x : AbundanceVector) (target : ℚ) (fuel : ℕ) : Option ℕ :=
  minsampleSearch x target fuel 0

/-- Search correctness: a returned `Δ` reaches the target and every smaller
candidate (from the scan's start) does not. -/
lemma minsampleSearch_spec (x : AbundanceVector) (target : ℚ) :
    ∀ (fuel d Δ : ℕ), minsampleSearch x target fuel d = some Δ →
      d ≤ Δ ∧ target ≤ expectedRichness x (x.sum + Δ)
        ∧ ∀ d', d ≤ d' → d' < Δ → expectedRichness x (x.sum + d') < target := by
  intro fuel
  induction fuel with
  | zero =>
    intro d Δ h
    simp [minsampleSearch] at h
  | succ fuel ih =>
    intro d Δ h
    rw [minsampleSearch] at h
    split at h
    · rename_i hle
      cases h
      refine ⟨le_refl _, hle, ?_⟩
      intro d' hd1 hd2
      omega
    · rename_i hgt
      obtain ⟨hdle, hrich, hmin⟩ := ih (d + 1) Δ h
      refine ⟨by omega, hrich, ?_⟩
      intro d' hd1 hd2
      rcases eq_or_lt_of_le hd1 with rfl | hd1'
      · exact lt_of_not_le hgt
      · exact hmin d' (by omega) hd2

/-- Modelled from the spec: a bootstrap replicate is a synthetic abundance
vector drawn with the same total size `n` as the observed one. -/
def IsReplicate (x r : AbundanceVector) : Prop := Valid r ∧ r.sum = x.sum

instance (x r : AbundanceVector) : Decidable (IsReplicate x r) := by
  unfold IsReplicate; infer_instance

/-- Modelled from the spec: `survival_ratio` — after bootstrapping the
estimate, divide `S_obs` by the point estimate and by each replicate's
estimate. -/
def survival_ratio (x : AbundanceVector) (reps : List AbundanceVector) : List ℚ :=
  ((S_obs x : ℚ) / chao1 x) :: reps.map (fun r => (S_obs x : ℚ) / chao1 r)

lemma chao1_pos {x : AbundanceVector} (hx : Valid x) : 0 < chao1 x := by
  have hlen : 1 ≤ x.length := by
    rcases x with _ | ⟨a, t⟩
    · exact absurd rfl hx.1
    · simp
  have h1 : (1 : ℚ) ≤ (S_obs x : ℚ) := by
    unfold S_obs
    exact_mod_cast hlen
  linarith [chao1_ge x]

end Copia

open Copia

/-- C9: for every valid abundance vector, the frequency counts satisfy
`∑ f_k = S_obs` and `∑ k·f_k = n` (summing over every frequency that can
occur, i.e. `k ≤ n`). -/
theorem summarize_invariants (x : AbundanceVector) (_hx : Valid x) :
    (∑ k ∈ Finset.range (nTotal x + 1), (summarize x).f k) = (summarize x).S_obs
    ∧ (∑ k ∈ Finset.range (nTotal x + 1), k * (summarize x).f k) = (summarize x).n :=
  ⟨sum_range_count x _ (valid_entry_lt x),
   sum_range_mul_count x _ (valid_entry_lt x)⟩

/-- C9 witness: both invariants at the concrete valid vector `[1,2,2]`. -/
theorem summarize_invariants_witness :
    Valid [1, 2, 2] ∧
      ((∑ k ∈ Finset.range (nTotal [1, 2, 2] + 1), (summarize [1, 2, 2]).f k)
          = (summarize [1, 2, 2]).S_obs
        ∧ (∑ k ∈ Finset.range (nTotal [1, 2, 2] + 1), k * (summarize [1, 2, 2]).f k)
          = (summarize [1, 2, 2]).n) :=
  ⟨by decide, summarize_invariants [1, 2, 2] (by decide)⟩

/-- C8: `basic_stats` fails with `InvalidInputError` iff the raw vector is
empty or holds a non-positive or non-integer entry; on every non-empty
vector of integer entries at least 1 it returns frequency counts. -/
theorem basic_stats_spec (raw : List ℚ) :
    (basic_stats raw = .error .invalidInput ↔
      raw = [] ∨ ∃ q ∈ raw, q ≤ 0 ∨ q.den ≠ 1)
    ∧ ((raw ≠ [] ∧ ∀ q ∈ raw, q.den = 1 ∧ 1 ≤ q) →
        ∃ fc, basic_stats raw = .ok fc) := by
  constructor
  · unfold basic_stats
    split
    · rename_i he
      simp [he]
    · rename_i he
      split
      · rename_i hall
        simp only [reduceCtorEq, false_iff]
        push_neg
        refine ⟨he, fun q hq => ?_⟩
        have hv := hall q hq
        exact ⟨by linarith [hv.2], hv.1⟩
      · rename_i hall
        simp only [true_iff]
        right
        push_neg at hall
        obtain ⟨q, hq, himp⟩ := hall
        have hbad : ¬(q.den = 1 ∧ 1 ≤ q) := by
          rintro ⟨hd, hge⟩
          exact absurd hge (not_le.mpr (himp hd))
        exact ⟨q, hq, (entry_invalid_iff q).mp hbad⟩
  · rintro ⟨hne, hall⟩
    unfold basic_stats
    rw [if_neg hne, if_pos hall]
    exact ⟨_, rfl⟩

/-- C8 witness: validation succeeds at the concrete raw vector `[1, 2]`. -/
theorem basic_stats_spec_witness :
    (([(1 : ℚ), 2] : List ℚ) ≠ [] ∧ ∀ q ∈ [(1 : ℚ), 2], q.den = 1 ∧ 1 ≤ q) ∧
      ∃ fc, basic_stats [(1 : ℚ), 2] = .ok fc := by
  have h : ([(1 : ℚ), 2] : List ℚ) ≠ [] ∧ ∀ q ∈ [(1 : ℚ), 2], q.den = 1 ∧ 1 ≤ q := by
    refine ⟨by simp, ?_⟩
    intro q hq
    rcases List.mem_cons.mp hq with rfl | hq
    · norm_num
    · rcases List.mem_cons.mp hq with rfl | hq
      · norm_num
      · simp at hq
  exact ⟨h, (basic_stats_spec [(1 : ℚ), 2]).2 h⟩

/-- C10: for every non-empty label sequence, `to_abundance` and the pandas
route `value_counts().values` carry the same multiset of per-label counts,
so both construction routes feed the estimators equal inputs (witnessed here
on chao1, which is invariant under reordering). -/
theorem to_abundance_eq_value_counts {α : Type} [DecidableEq α]
    (labels : List α) (_hne : labels ≠ []) :
    (↑(to_abundance labels) : Multiset ℕ) = ↑(value_counts labels)
    ∧ chao1 (to_abundance labels) = chao1 (value_counts labels) := by
  have hperm : List.Perm (to_abundance labels) (value_counts labels) := by
    unfold to_abundance value_counts
    have h1 : List.Perm
        (Multiset.sort (· ≤ ·)
          (↑(labels.dedup.map (fun a => labels.count a)) : Multiset ℕ))
        (labels.dedup.map (fun a => labels.count a)) :=
      Multiset.coe_eq_coe.mp (Multiset.sort_eq _ _)
    exact ((List.reverse_perm _).trans h1).symm
  exact ⟨Multiset.coe_eq_coe.mpr hperm, chao1_perm hperm⟩

/-- C10 witness: the two routes agree on the concrete label sequence
`["a", "b", "a"]`. -/
theorem to_abundance_eq_value_counts_witness :
    (↑(to_abundance ["a", "b", "a"]) : Multiset ℕ) = ↑(value_counts ["a", "b", "a"])
    ∧ chao1 (to_abundance ["a", "b", "a"]) = chao1 (value_counts ["a", "b", "a"]) :=
  to_abundance_eq_value_counts ["a", "b", "a"] (by simp)

/-- C3: with the seed threaded through every replicate, the sorted replicate
set of the parallel bootstrap is bit-identical for any two positive worker
counts — in particular for `n_jobs = 1` versus `n_jobs = 4`. -/
theorem bootstrap_parallelism_invariant (est : AbundanceVector → ℚ)
    (resample : ℕ → ℕ → AbundanceVector) (seed n_iter j₁ j₂ : ℕ)
    (h₁ : 0 < j₁) (h₂ : 0 < j₂) :
    sortedReps (parReplicateEstimates est resample seed n_iter j₁)
      = sortedReps (parReplicateEstimates est resample seed n_iter j₂) := by
  unfold sortedReps
  rw [Multiset.coe_eq_coe.mpr (parReplicateEstimates_perm est resample seed n_iter j₁ h₁),
    Multiset.coe_eq_coe.mpr (parReplicateEstimates_perm est resample seed n_iter j₂ h₂)]

/-- C3 witness: a concrete estimator, resampler and seed with `n_jobs = 1`
versus `n_jobs = 4`. -/
theorem bootstrap_parallelism_invariant_witness :
    0 < 1 ∧ 0 < 4 ∧
      sortedReps (parReplicateEstimates chao1 (fun s i => [s + i + 1]) 7 5 1)
        = sortedReps (parReplicateEstimates chao1 (fun s i => [s + i + 1]) 7 5 4) :=
  ⟨by decide, by decide,
    bootstrap_parallelism_invariant chao1 (fun s i => [s + i + 1]) 7 5 1 4
      (by decide) (by decide)⟩

/-- C7: for `n_iter ≥ 1` (and a positive worker count) the bootstrap result
carries exactly `n_iter` replicates, and its lower/upper fields are the
`(1−confidence_level)/2` and `1−(1−confidence_level)/2` empirical quantiles
of the sorted replicate distribution. -/
theorem bootstrapResult_spec (est : AbundanceVector → ℚ)
    (resample : ℕ → ℕ → AbundanceVector) (x : AbundanceVector)
    (seed n_iter n_jobs : ℕ) (cl : ℚ) (_hx : Valid x)
    (_hiter : 1 ≤ n_iter) (hjobs : 0 < n_jobs) :
    (bootstrapResult est resample x seed n_iter n_jobs cl).bootstrap.length = n_iter
    ∧ (bootstrapResult est resample x seed n_iter n_jobs cl).lower
        = empiricalQuantile
            (bootstrapResult est resample x seed n_iter n_jobs cl).bootstrap
            ((1 - cl) / 2)
    ∧ (bootstrapResult est resample x seed n_iter n_jobs cl).upper
        = empiricalQuantile
            (bootstrapResult est resample x seed n_iter n_jobs cl).bootstrap
            (1 - (1 - cl) / 2) := by
  refine ⟨?_, rfl, rfl⟩
  have hlen := (parReplicateEstimates_perm est resample seed n_iter n_jobs hjobs).length_eq
  calc (bootstrapResult est resample x seed n_iter n_jobs cl).bootstrap.length
      = (parReplicateEstimates est resample seed n_iter n_jobs).length := rfl
    _ = (replicateEstimates est resample seed n_iter).length := hlen
    _ = n_iter := by
        unfold replicateEstimates
        rw [List.length_map, List.length_range]

/-- C7 witness: the bootstrap record shape at a concrete valid vector, seed,
iteration count, worker count and confidence level. -/
theorem bootstrapResult_spec_witness :
    (Valid [1, 2] ∧ 1 ≤ 3 ∧ 0 < 2) ∧
      ((bootstrapResult chao1 (fun s i => [s + i + 1]) [1, 2] 7 3 2 (9/10)).bootstrap.length = 3
      ∧ (bootstrapResult chao1 (fun s i => [s + i + 1]) [1, 2] 7 3 2 (9/10)).lower
          = empiricalQuantile
              (bootstrapResult chao1 (fun s i => [s + i + 1]) [1, 2] 7 3 2 (9/10)).bootstrap
              ((1 - 9/10) / 2)
      ∧ (bootstrapResult chao1 (fun s i => [s + i + 1]) [1, 2] 7 3 2 (9/10)).upper
          = empiricalQuantile
              (bootstrapResult chao1 (fun s i => [s + i + 1]) [1, 2] 7 3 2 (9/10)).bootstrap
              (1 - (1 - 9/10) / 2)) :=
  ⟨⟨by decide, by decide, by decide⟩,
    bootstrapResult_spec chao1 (fun s i => [s + i + 1]) [1, 2] 7 3 2 (9/10)
      (by decide) (by decide) (by decide)⟩

/-- C4: for every valid abundance vector and positive `max_steps` the curve's
expected richness equals `S_obs` exactly at sample size `n`, is non-decreasing
in sample size over the whole interpolated and extrapolated range, and for
`m > n` equals `S_obs + f0_hat·(1 − (1 − f1/(f0_hat·n + f1))^(m−n))`; the
points of `species_accumulation` are exactly this function's values. -/
theorem species_accumulation_spec (x : AbundanceVector) (hx : Valid x)
    (max_steps : ℕ) (_hms : 0 < max_steps) :
    expectedRichness x (nTotal x) = (S_obs x : ℚ)
    ∧ (∀ m₁ m₂ : ℕ, m₁ ≤ m₂ → expectedRichness x m₁ ≤ expectedRichness x m₂)
    ∧ (∀ m : ℕ, nTotal x < m →
        expectedRichness x m
          = (S_obs x : ℚ) + f0hat x *
              (1 - (1 - (freq x 1 : ℚ) / (f0hat x * (nTotal x : ℚ) + (freq x 1 : ℚ)))
                ^ (m - nTotal x)))
    ∧ (∀ p ∈ species_accumulation x max_steps, p.2 = expectedRichness x p.1) := by
  refine ⟨?_, ?_, ?_, ?_⟩
  · show expectedRichness x x.sum = (x.length : ℚ)
    rw [expectedRichness, if_pos (le_refl _)]
    exact interpolated_at_n hx
  · exact fun m₁ m₂ h => expectedRichness_mono hx h
  · intro m hm
    show expectedRichness x m = _
    rw [expectedRichness, if_neg (by unfold nTotal at hm; omega)]
    rfl
  · intro p hp
    obtain ⟨m, _, rfl⟩ := List.mem_map.mp hp
    rfl

/-- C4 witness: the accumulation-curve contract at the concrete valid vector
`[1,2]` with `max_steps = 5`. -/
theorem species_accumulation_spec_witness :
    (Valid [1, 2] ∧ 0 < 5) ∧
      (expectedRichness [1, 2] (nTotal [1, 2]) = (S_obs [1, 2] : ℚ)
      ∧ (∀ m₁ m₂ : ℕ, m₁ ≤ m₂ →
          expectedRichness [1, 2] m₁ ≤ expectedRichness [1, 2] m₂)
      ∧ (∀ m : ℕ, nTotal [1, 2] < m →
          expectedRichness [1, 2] m
            = (S_obs [1, 2] : ℚ) + f0hat [1, 2] *
                (1 - (1 - (freq [1, 2] 1 : ℚ) /
                  (f0hat [1, 2] * (nTotal [1, 2] : ℚ) + (freq [1, 2] 1 : ℚ)))
                  ^ (m - nTotal [1, 2])))
      ∧ (∀ p ∈ species_accumulation [1, 2] 5, p.2 = expectedRichness [1, 2] p.1)) :=
  ⟨⟨by decide, by decide⟩, species_accumulation_spec [1, 2] (by decide) 5 (by decide)⟩

/-- C5 (amended): whenever the solver returns an additional sample count `Δ`,
the expected richness at `n + Δ` reaches the target, every strictly smaller
additional count falls short, and in particular for `Δ ≥ 1` the tight
boundary `expected_richness(n+Δ−1) < target` holds (for `Δ = 0` the boundary
inequality can fail: the target may already be met below `n`). -/
theorem minsample_spec (x : AbundanceVector) (target : ℚ) (fuel Δ : ℕ)
    (_hx : Valid x) (h : minsample x target fuel = some Δ) :
    target ≤ expectedRichness x (nTotal x + Δ)
    ∧ (∀ Δ' : ℕ, Δ' < Δ → expectedRichness x (nTotal x + Δ') < target)
    ∧ (1 ≤ Δ → expectedRichness x (nTotal x + (Δ - 1)) < target) := by
  obtain ⟨-, hrich, hmin⟩ := minsampleSearch_spec x target fuel 0 Δ h
  exact ⟨hrich, fun Δ' hΔ => hmin Δ' (Nat.zero_le _) hΔ,
    fun h1 => hmin (Δ - 1) (Nat.zero_le _) (by omega)⟩

/-- Concrete rarefaction value: at the full sample the curve returns the
observed richness 2. -/
lemma eval_richness_3 : expectedRichness [1, 2] 3 = 2 := by
  rw [expectedRichness, if_pos (by decide)]
  unfold interpolatedRichness
  norm_num [Nat.choose]

/-- Concrete extrapolated value one step beyond the sample. -/
lemma eval_richness_4 : expectedRichness [1, 2] 4 = 11/5 := by
  rw [expectedRichness, if_neg (by decide)]
  simp only [extrapolatedRichness, pNew, f0hat, chao1, chao1fc, summarize]
  norm_num [freq]

/-- Concrete extrapolated value two steps beyond the sample. -/
lemma eval_richness_5 : expectedRichness [1, 2] 5 = 58/25 := by
  rw [expectedRichness, if_neg (by decide)]
  simp only [extrapolatedRichness, pNew, f0hat, chao1, chao1fc, summarize]
  norm_num [freq]

/-- The solver's concrete run on `[1,2]` with target `9/4`: richness reaches
`9/4` first at `Δ = 2`. -/
lemma minsample_eval : minsample [1, 2] ((9 : ℚ)/4) 5 = some 2 := by
  have e3 : expectedRichness [1, 2] (([1, 2] : List ℕ).sum + 0) = 2 :=
    eval_richness_3
  have e4 : expectedRichness [1, 2] (([1, 2] : List ℕ).sum + 1) = 11/5 :=
    eval_richness_4
  have e5 : expectedRichness [1, 2] (([1, 2] : List ℕ).sum + 2) = 58/25 :=
    eval_richness_5
  calc minsample [1, 2] ((9 : ℚ)/4) 5
      = if (9 : ℚ)/4 ≤ expectedRichness [1, 2] (([1, 2] : List ℕ).sum + 0)
        then some 0 else minsampleSearch [1, 2] ((9 : ℚ)/4) 4 1 := rfl
    _ = minsampleSearch [1, 2] ((9 : ℚ)/4) 4 1 := by
        rw [e3, if_neg (by norm_num)]
    _ = if (9 : ℚ)/4 ≤ expectedRichness [1, 2] (([1, 2] : List ℕ).sum + 1)
        then some 1 else minsampleSearch [1, 2] ((9 : ℚ)/4) 3 2 := rfl
    _ = minsampleSearch [1, 2] ((9 : ℚ)/4) 3 2 := by
        rw [e4, if_neg (by norm_num)]
    _ = if (9 : ℚ)/4 ≤ expectedRichness [1, 2] (([1, 2] : List ℕ).sum + 2)
        then some 2 else minsampleSearch [1, 2] ((9 : ℚ)/4) 2 3 := rfl
    _ = some 2 := by
        rw [e5, if_pos (by norm_num)]

/-- C5 witness: the solver contract at the concrete run
`minsample [1,2] (9/4) 5 = some 2`. -/
theorem minsample_spec_witness :
    (Valid [1, 2] ∧ minsample [1, 2] ((9 : ℚ)/4) 5 = some 2) ∧
      ((9 : ℚ)/4 ≤ expectedRichness [1, 2] (nTotal [1, 2] + 2)
      ∧ (∀ Δ' : ℕ, Δ' < 2 → expectedRichness [1, 2] (nTotal [1, 2] + Δ') < (9 : ℚ)/4)
      ∧ (1 ≤ 2 → expectedRichness [1, 2] (nTotal [1, 2] + (2 - 1)) < (9 : ℚ)/4)) :=
  ⟨⟨by decide, minsample_eval⟩,
    minsample_spec [1, 2] ((9 : ℚ)/4) 5 2 (by decide) minsample_eval⟩

/-- Rarefaction value of `[2,2]` one draw below the full sample: with no
singletons the curve is already flat at 2. -/
lemma eval_richness_22 : expectedRichness [2, 2] 3 = 2 := by
  rw [expectedRichness, if_pos (by decide)]
  unfold interpolatedRichness
  norm_num [Nat.choose]

/-- The solver's run on `[2,2]` with target 2: met immediately, `Δ = 0`. -/
lemma minsample_eval_22 : minsample [2, 2] (2 : ℚ) 5 = some 0 := by
  have e4 : expectedRichness [2, 2] (([2, 2] : List ℕ).sum + 0) = 2 := by
    show expectedRichness [2, 2] 4 = 2
    rw [expectedRichness, if_pos (by decide)]
    exact interpolated_at_n (by decide)
  calc minsample [2, 2] (2 : ℚ) 5
      = if (2 : ℚ) ≤ expectedRichness [2, 2] (([2, 2] : List ℕ).sum + 0)
        then some 0 else minsampleSearch [2, 2] (2 : ℚ) 4 1 := rfl
    _ = some 0 := by
        rw [e4, if_pos (by norm_num)]

/-- C5 counterexample: on `[2,2]` with reachable target 2 the solver returns
`Δ = 0`, yet `expected_richness(n + Δ − 1) = expected_richness(3) = 2` is not
strictly below the target, so the claimed tight boundary fails at `Δ = 0`. -/
theorem minsample_tight_boundary_cex :
    minsample [2, 2] (2 : ℚ) 5 = some 0
    ∧ ¬(expectedRichness [2, 2] (nTotal [2, 2] + 0 - 1) < (2 : ℚ)) := by
  refine ⟨minsample_eval_22, ?_⟩
  have h3 : expectedRichness [2, 2] (nTotal [2, 2] + 0 - 1) = 2 := by
    show expectedRichness [2, 2] 3 = 2
    exact eval_richness_22
  rw [h3]
  norm_num

/-- C6 (amended): the survival ratio obtained from the point estimate always
lies in `(0, 1]`; a replicate's ratio lies in `(0, 1]` whenever that
replicate's estimate is at least the observed richness `S_obs` — a resample
that observes fewer species can push the ratio above 1. -/
theorem survival_ratio_spec (x : AbundanceVector) (reps : List AbundanceVector)
    (hx : Valid x) (_hreps : ∀ r ∈ reps, IsReplicate x r) :
    (0 < (S_obs x : ℚ) / chao1 x ∧ (S_obs x : ℚ) / chao1 x ≤ 1)
    ∧ ∀ r ∈ reps, (S_obs x : ℚ) ≤ chao1 r →
        (0 < (S_obs x : ℚ) / chao1 r ∧ (S_obs x : ℚ) / chao1 r ≤ 1) := by
  have hS : (0 : ℚ) < (S_obs x : ℚ) := by
    unfold S_obs
    rcases x with _ | ⟨a, t⟩
    · exact absurd rfl hx.1
    · exact_mod_cast Nat.succ_pos t.length
  constructor
  · exact ⟨div_pos hS (chao1_pos hx), (div_le_one (chao1_pos hx)).mpr (chao1_ge x)⟩
  · intro r _ hge
    have hpos : (0 : ℚ) < chao1 r := lt_of_lt_of_le hS hge
    exact ⟨div_pos hS hpos, (div_le_one hpos).mpr hge⟩

/-- C6 witness: the ratio bounds at the concrete vector `[1,2]` with the
concrete replicate `[1,1,1]`. -/
theorem survival_ratio_spec_witness :
    (Valid [1, 2] ∧ ∀ r ∈ [[1, 1, 1]], IsReplicate [1, 2] r) ∧
      ((0 < (S_obs [1, 2] : ℚ) / chao1 [1, 2] ∧ (S_obs [1, 2] : ℚ) / chao1 [1, 2] ≤ 1)
      ∧ ∀ r ∈ [[1, 1, 1]], (S_obs [1, 2] : ℚ) ≤ chao1 r →
          (0 < (S_obs [1, 2] : ℚ) / chao1 r ∧ (S_obs [1, 2] : ℚ) / chao1 r ≤ 1)) :=
  ⟨⟨by decide, by decide⟩,
    survival_ratio_spec [1, 2] [[1, 1, 1]] (by decide) (by decide)⟩

/-- C6 counterexample: `[2]` is a legitimate same-size replicate of `[1,1]`;
its chao1 estimate is 1, so the replicate's survival ratio is `2/1 = 2`,
outside `(0, 1]`. -/
theorem survival_ratio_cex :
    IsReplicate [1, 1] [2]
    ∧ (2 : ℚ) ∈ survival_ratio [1, 1] [[2]]
    ∧ ¬((2 : ℚ) ≤ 1) := by
  refine ⟨by decide, ?_, by norm_num⟩
  have h : survival_ratio [1, 1] [[2]] = [(2 : ℚ)/3, 2] := by
    unfold survival_ratio
    simp only [chao1_eq, List.map_cons, List.map_nil]
    norm_num [freq, S_obs]
  rw [h]
  simp

open Copia

/-- C1 (amended): chao1 follows the two-branch formula; on
`[5,3,3,1,1,1,1,2]` we have `f1 = 4`, `f2 = 1`, `S_obs = 8`, `n = 17` and
`chao1 = 8 + 16/2 = 16`; on `[1,1,1]` (`f1 = 3`, `f2 = 0`) the degenerate
branch gives `6`. -/
theorem chao1_formula_and_scenarios (x : AbundanceVector) (_hx : Valid x) :
    (chao1 x = if 0 < freq x 2 then
        (S_obs x : ℚ) + (freq x 1 : ℚ) ^ 2 / (2 * (freq x 2 : ℚ))
      else
        (S_obs x : ℚ) + (freq x 1 : ℚ) * ((freq x 1 : ℚ) - 1) / 2)
    ∧ chao1 [5, 3, 3, 1, 1, 1, 1, 2] = 16
    ∧ chao1 [1, 1, 1] = 6 := by
  refine ⟨chao1_eq x, ?_, ?_⟩ <;>
    · rw [chao1_eq]
      norm_num [freq, S_obs]

/-- C1 witness: the formula theorem applied to the concrete valid vector
`[1,1,1]`. -/
theorem chao1_formula_and_scenarios_witness :
    Valid [1, 1, 1] ∧ chao1 [1, 1, 1] = 6 :=
  ⟨by decide, (chao1_formula_and_scenarios [1, 1, 1] (by decide)).2.2⟩

/-- C1 counterexample: on `[5,3,3,1,1,1,1,2]` only one entry equals 2, so
`f2 = 1` (not 2) and `chao1 = 8 + 16/2 = 16`, not 12 as claimed. -/
theorem chao1_scenario_cex :
    freq [5, 3, 3, 1, 1, 1, 1, 2] 2 = 1 ∧
    chao1 [5, 3, 3, 1, 1, 1, 1, 2] ≠ 12 := by
  constructor
  · decide
  · rw [chao1_eq]
    norm_num [freq, S_obs]

/-- C2 (amended): for every valid abundance vector, `chao1 ≥ S_obs`, with
equality iff `f1 = 0` or (`f2 = 0` and `f1 = 1`), the latter being the
degenerate branch's extra equality case. -/
theorem chao1_ge_S_obs (x : AbundanceVector) (_hx : Valid x) :
    (S_obs x : ℚ) ≤ chao1 x ∧
      (chao1 x = (S_obs x : ℚ) ↔ (freq x 1 = 0 ∨ (freq x 2 = 0 ∧ freq x 1 = 1))) :=
  ⟨chao1_ge x, chao1_eq_S_iff x⟩

/-- C2 witness: the bound at the concrete valid vector `[1,2]`. -/
theorem chao1_ge_S_obs_witness :
    Valid [1, 2] ∧
      ((S_obs [1, 2] : ℚ) ≤ chao1 [1, 2] ∧
        (chao1 [1, 2] = (S_obs [1, 2] : ℚ) ↔
          (freq [1, 2] 1 = 0 ∨ (freq [1, 2] 2 = 0 ∧ freq [1, 2] 1 = 1)))) :=
  ⟨by decide, chao1_ge_S_obs [1, 2] (by decide)⟩

/-- C2 counterexample: on `[1,3]` (valid, `f1 = 1`, `f2 = 0`) chao1 equals
`S_obs` although `f1 ≠ 0`, refuting "equality iff `f1 == 0`". -/
theorem chao1_eq_S_obs_cex :
    Valid [1, 3] ∧ chao1 [1, 3] = (S_obs [1, 3] : ℚ) ∧ freq [1, 3] 1 ≠ 0 := by
  refine ⟨by decide, ?_, by decide⟩
  rw [chao1_eq]
  norm_num [freq, S_obs]
